import Mathlib

/-!
Verification of the versioned, hierarchical topic store of the
projectmark-restful-api repository.

The TypeScript sources are shallowly embedded: the in-memory database
(`InMemoryDatabase`, a `Map` from topic id to the array of versions) becomes
an association list kept in insertion order, the repository and service
methods become pure functions, thrown errors become `Except`, and the loops
without a structural bound in the source (`getAncestors`,
`wouldCreateCircularReference`, `hasCircularReference`, Dijkstra) take an
explicit fuel parameter, `none` marking a run that the JavaScript original
would not finish.  Machine details that no claim touches are abstracted:
`createdAt`/`updatedAt` timestamps are dropped, `version : number` is a
`Nat` (the code only ever produces positive integers), JavaScript's
UTF-16 `length` becomes `String.length`, `trim().length === 0` becomes an
all-whitespace check, and `uuidv4()` becomes an explicit id argument.
-/

/-- Topic snapshot, from `src/models/Topic.ts` (timestamps omitted). -/
structure Topic where
  id : String
  name : String
  content : String
  version : Nat
  parentTopicId : Option String
deriving DecidableEq, Repr

/-- The topic table of `InMemoryDatabase`: a JavaScript `Map` from id to the
array of versions, modelled as an association list in insertion order
(`Map.set` updates in place or appends, `Map.delete` removes the entry). -/
abbrev DB := List (String × List Topic)

/-- JavaScript truthiness of a `string | undefined` value: `undefined` and
the empty string are falsy. -/
def truthyOpt : Option String → Option String
  | none => none
  | some s => if s = "" then none else some s

/-- `s.trim().length === 0`: the string is empty or all whitespace. -/
def isBlank (s : String) : Bool := s.data.all Char.isWhitespace

/-- `Map.get` on the topics map. -/
def dbLookup (db : DB) (key : String) : Option (List Topic) :=
  match db with
  | [] => none
  | (k, v) :: rest => if k = key then some v else dbLookup rest key

/-- `Map.set` on the topics map: replace the entry in place, else append. -/
def dbSet (db : DB) (key : String) (vs : List Topic) : DB :=
  match db with
  | [] => [(key, vs)]
  | (k, v) :: rest => if k = key then (key, vs) :: rest else (k, v) :: dbSet rest key vs

/-- `Map.delete` on the topics map: remove the entry, report whether it
existed.  `InMemoryDatabase.deleteTopic` returns this boolean directly. -/
def dbDelete (db : DB) (key : String) : DB × Bool :=
  match db with
  | [] => ([], false)
  | (k, v) :: rest =>
    if k = key then (rest, true)
    else
      let r := dbDelete rest key
      ((k, v) :: r.1, r.2)

/-- `InMemoryDatabase.findTopicVersions`: the id's version array, `[]` if the
id is unknown. -/
def findTopicVersions (db : DB) (id : String) : List Topic :=
  (dbLookup db id).getD []

/-- `InMemoryDatabase.findTopicById`: without a version, the last element of
the id's array ("latest"); with a version, the first exact match. -/
def findTopicById (db : DB) (id : String) (version : Option Nat) : Option Topic :=
  match dbLookup db id with
  | none => none
  | some vs =>
    if vs.isEmpty then none
    else
      match version with
      | some v => vs.find? (fun t => t.version = v)
      | none => vs.getLast?

/-- `InMemoryDatabase.findAllTopics`: one latest snapshot per id, in map
order, skipping empty arrays. -/
def findAllTopics (db : DB) : List Topic :=
  db.filterMap (fun e => e.2.getLast?)

/-- `InMemoryDatabase.findTopicsByParentId`: latest snapshots whose
`parentTopicId` strictly equals the argument. -/
def findTopicsByParentId (db : DB) (parentId : String) : List Topic :=
  (findAllTopics db).filter (fun t => t.parentTopicId = some parentId)

/-- Comparator of `versions.sort((a, b) => a.version - b.version)`. -/
def versionRel (a b : Topic) : Prop := a.version ≤ b.version

instance : DecidableRel versionRel := fun a b => Nat.decLe a.version b.version

/-- `InMemoryDatabase.saveTopic`: overwrite the snapshot with the same
version number in place, else append and re-sort ascending by version.
JavaScript's `sort` is stable, and any two stable sorts under the same
comparator agree on every input, so it is modelled by the (stable)
`insertionSort`. -/
def saveTopic (db : DB) (t : Topic) : DB :=
  let vs := (dbLookup db t.id).getD []
  let vs' :=
    match vs.findIdx? (fun v => v.version = t.version) with
    | some i => vs.set i t
    | none => (vs ++ [t]).insertionSort versionRel
  dbSet db t.id vs'

/-- `Topic.getValidationErrors`.  The JavaScript guard
`this.name && this.name.length > 255` is equivalent to `255 < name.length`
because a string longer than 255 is truthy. -/
def getValidationErrors (t : Topic) : List String :=
  (if isBlank t.name then ["Name is required"] else []) ++
  (if 255 < t.name.length then ["Name must be less than 255 characters"] else []) ++
  (if isBlank t.content then ["Content is required"] else []) ++
  (if t.version < 1 then ["Version must be greater than 0"] else [])

/-- The error taxonomy: thrown `Error`s of the service and repository layer,
by kind. -/
inductive Err where
  | notFound (id : String)
  | validationFailed (msgs : List String)
  | circularReference
deriving DecidableEq, Repr

/-- `TopicRepository.save`: validate first, throw before touching the
database when invalid, else delegate to `saveTopic`. -/
def saveRepo (db : DB) (t : Topic) : Except Err (DB × Topic) :=
  if (getValidationErrors t).isEmpty then .ok (saveTopic db t, t)
  else .error (.validationFailed (getValidationErrors t))

/-- The database state after a `TopicRepository.save` call: the new state on
success, the old state when the call threw. -/
def saveRepoState (db : DB) (t : Topic) : DB :=
  match saveRepo db t with
  | .ok r => r.1
  | .error _ => db

/-- `VersionedTopicFactory.createTopic` on the service's create path: no
`data.id` is supplied there, so the version is forced to 1 and the id is a
fresh uuid (the explicit `freshId` argument); empty name or content is
falsy and rejected. -/
def createTopicFactory (freshId name content : String) (parentId : Option String) :
    Except Err Topic :=
  if name = "" ∨ content = "" then
    .error (.validationFailed ["Topic name and content are required"])
  else
    .ok { id := freshId, name := name, content := content, version := 1,
          parentTopicId := parentId }

/-- `TopicService.create`. -/
def createSvc (db : DB) (freshId name content : String) (parentId : Option String) :
    Except Err (DB × Topic) :=
  match createTopicFactory freshId name content parentId with
  | .error e => .error e
  | .ok t => saveRepo db t

/-- The `Partial<Topic>` update payload: `none` = field absent. -/
structure UpdateData where
  name : Option String := none
  content : Option String := none
  parentTopicId : Option String := none
deriving DecidableEq, Repr

/-- `Topic.createNewVersion` followed by the field assignments of
`TopicService.update`: version + 1, same id, supplied fields overwrite,
absent fields carried forward. -/
def applyUpdate (t : Topic) (d : UpdateData) : Topic :=
  { id := t.id
    name := d.name.getD t.name
    content := d.content.getD t.content
    version := t.version + 1
    parentTopicId :=
      match d.parentTopicId with
      | some p => some p
      | none => t.parentTopicId }

/-- `TopicService.update`. -/
def updateSvc (db : DB) (id : String) (d : UpdateData) : Except Err (DB × Topic) :=
  match findTopicById db id none with
  | none => .error (.notFound id)
  | some latest => saveRepo db (applyUpdate latest d)

/-- The delete loop of `TopicService.delete`: delete each listed id in turn,
counting the deletions that found something. -/
def deleteLoop (db : DB) (ids : List String) : DB × Nat :=
  match ids with
  | [] => (db, 0)
  | i :: rest =>
    let r1 := dbDelete db i
    let r2 := deleteLoop r1.1 rest
    (r2.1, (if r1.2 then 1 else 0) + r2.2)

/-- `TopicService.delete`: find the topic, then — as written in the source —
fetch `findVersions(topic.name)` (the *name*, not the id) and delete each
returned snapshot's id, returning whether anything was deleted. -/
def deleteSvc (db : DB) (id : String) : DB × Bool :=
  match findTopicById db id none with
  | none => (db, false)
  | some topic =>
    let versions := findTopicVersions db topic.name
    let r := deleteLoop db (versions.map (fun v => v.id))
    (r.1, decide (0 < r.2))

/-- Number of known topic ids (`Map.size`). -/
def numIds (db : DB) : Nat := db.length

/-- `TopicService.wouldCreateCircularReference`: walk the candidate parent
chain upward; `true` on reaching `topicId`, `false` on a dangling or absent
parent.  The source loop has no bound, so the walk takes fuel; `none` marks
a run the JavaScript original would never finish. -/
def wccFuel (db : DB) (topicId : String) : Nat → String → Option Bool
  | 0, _ => none
  | f + 1, cur =>
    if cur = topicId then some true
    else
      match findTopicById db cur none with
      | none => some false
      | some t =>
        match truthyOpt t.parentTopicId with
        | none => some false
        | some q => wccFuel db topicId f q

/-- The tail of `TopicService.moveTopic`: a new version with
`parentTopicId = newParentId || undefined`, saved through the repository. -/
def applyMove (db : DB) (topic : Topic) (newParentId : Option String) :
    Except Err (DB × Topic) :=
  saveRepo db
    { id := topic.id, name := topic.name, content := topic.content,
      version := topic.version + 1, parentTopicId := truthyOpt newParentId }

/-- `TopicService.moveTopic`.  The outer `Option` is `none` exactly when the
unbounded cycle walk of the source would not terminate; a terminating walk
needs at most `numIds + 2` steps because it stops on the first repeated id. -/
def moveTopicSvc (db : DB) (topicId : String) (newParentId : Option String) :
    Option (Except Err (DB × Topic)) :=
  match findTopicById db topicId none with
  | none => some (.error (.notFound topicId))
  | some topic =>
    match truthyOpt newParentId with
    | none => some (applyMove db topic newParentId)
    | some p =>
      match wccFuel db topicId (numIds db + 2) p with
      | none => none
      | some true => some (.error .circularReference)
      | some false => some (applyMove db topic newParentId)

/-- A one-topic store: id `"t1"`, name `"A"`. -/
def dbC1 : DB :=
  [("t1", [{ id := "t1", name := "A", content := "body", version := 1,
             parentTopicId := none }])]

/-! ### Store invariant and reachable states -/

/-- Well-formedness of one map entry: every stored snapshot carries the id
it is filed under, and the version numbers are exactly `1..N` ascending. -/
def entryOK (e : String × List Topic) : Prop :=
  (∀ v ∈ e.2, v.id = e.1) ∧ e.2.map Topic.version = List.range' 1 e.2.length

/-- Well-formedness of the whole store: distinct map keys (a JavaScript
`Map` cannot repeat a key) and every entry well-formed. -/
def InvDB (db : DB) : Prop :=
  (db.map Prod.fst).Nodup ∧ ∀ e ∈ db, entryOK e

/-- States reachable from the empty store by the four core operations.
Operations that throw leave the store as it was, so only successful
mutations introduce new states; a `moveTopic` whose cycle walk diverges
produces no state at all. -/
inductive Reachable : DB → Prop where
  | empty : Reachable []
  | create (db db' : DB) (t : Topic) (freshId name content : String)
      (parentId : Option String) : Reachable db →
      createSvc db freshId name content parentId = .ok (db', t) → Reachable db'
  | update (db db' : DB) (t : Topic) (id : String) (d : UpdateData) :
      Reachable db → updateSvc db id d = .ok (db', t) → Reachable db'
  | move (db db' : DB) (t : Topic) (id : String) (p : Option String) :
      Reachable db → moveTopicSvc db id p = some (.ok (db', t)) → Reachable db'
  | del (db : DB) (id : String) : Reachable db → Reachable (deleteSvc db id).1

/-! ### Graph walks: ancestors, cycles, descendants -/

/-- `Topic.getParent`: resolve the (truthy) parent pointer to the parent's
latest version; absent, empty or dangling pointers give `none`. -/
def getParentT (db : DB) (t : Topic) : Option Topic :=
  match truthyOpt t.parentTopicId with
  | none => none
  | some p => findTopicById db p none

/-- The `while` loop of `Topic.getAncestors`: `acc` is the list built with
`unshift` (root-first), `cur` the current parent.  The source loop has no
bound, so it takes fuel; `none` marks a walk the JavaScript original has
not finished within that many iterations. -/
def getAncestorsFuel (db : DB) : Nat → Option Topic → List Topic → Option (List Topic)
  | _, none, acc => some acc
  | 0, some _, _ => none
  | f + 1, some cur, acc => getAncestorsFuel db f (getParentT db cur) (cur :: acc)

/-- `Topic.getAncestors` under an iteration budget. -/
def getAncestors (db : DB) (fuel : Nat) (t : Topic) : Option (List Topic) :=
  getAncestorsFuel db fuel (getParentT db t) []

/-- The bare parent-chain walk from an id: ends on a dangling or absent
parent, `none` when the fuel runs out first. -/
def chainFuel (db : DB) : Nat → String → Option Unit
  | 0, _ => none
  | f + 1, cur =>
    match findTopicById db cur none with
    | none => some ()
    | some t =>
      match truthyOpt t.parentTopicId with
      | none => some ()
      | some q => chainFuel db f q

/-- Acyclicity of the stored parent pointers: from every known id the
parent chain ends within `numIds + 1` lookups.  (A chain that never ends
revisits an id, and a terminating chain visits each stored id at most
once, so this bound is exact.) -/
def Acyclic (db : DB) : Prop :=
  ∀ i ∈ db.map Prod.fst, (chainFuel db (numIds db + 1) i).isSome

/-- Well-formedness: stored ids are nonempty strings (the code generates
them with `uuidv4()`). -/
def IdsNonempty (db : DB) : Prop := ∀ i ∈ db.map Prod.fst, i ≠ ""

/-- `d` is a descendant of `anc` in the sense of `Topic.getChildren` /
`getDescendants`: the transitive closure of "latest version's
`parentTopicId` points at the parent". -/
inductive DescendantOf (db : DB) (anc : String) : String → Prop where
  | child (d : String) (t : Topic) : findTopicById db d none = some t →
      t.parentTopicId = some anc → DescendantOf db anc d
  | trans (m d : String) (t : Topic) : DescendantOf db anc m →
      findTopicById db d none = some t → t.parentTopicId = some m →
      DescendantOf db anc d

/-- The store state after a `moveTopic` call: new state on success, old
state when the call threw (a diverging cycle walk never produces one). -/
def moveState (db : DB) (topicId : String) (newParentId : Option String) : DB :=
  match moveTopicSvc db topicId newParentId with
  | some (.ok r) => r.1
  | _ => db

/-- The root-first ancestor-chain property: walking `l ++ [t]` left to
right, each element is the parent of the next, and the first element (the
root, or `t` itself when `l = []`) has no resolving parent. -/
def AncChain (db : DB) (t : Topic) (l : List Topic) : Prop :=
  List.Chain' (fun x y => getParentT db y = some x) (l ++ [t]) ∧
    ∀ r, (l ++ [t]).head? = some r → getParentT db r = none

/-- Two topics whose parent pointers form an A↔B cycle (corrupt data of
the kind `importData` can introduce; `move` alone cannot). -/
def dbCyc : DB :=
  [("a", [{ id := "a", name := "A", content := "c", version := 1,
            parentTopicId := some "b" }]),
   ("b", [{ id := "b", name := "B", content := "c", version := 1,
            parentTopicId := some "a" }])]

/-- The cyclic topic `a` of `dbCyc`. -/
def topicCycA : Topic :=
  { id := "a", name := "A", content := "c", version := 1, parentTopicId := some "b" }

/-- An acyclic store: parent `a` with one child `b`. -/
def dbPC : DB :=
  [("a", [{ id := "a", name := "A", content := "ca", version := 1,
            parentTopicId := none }]),
   ("b", [{ id := "b", name := "B", content := "cb", version := 1,
            parentTopicId := some "a" }])]

/-- The child topic `b` of `dbPC`. -/
def topicPCB : Topic :=
  { id := "b", name := "B", content := "cb", version := 1, parentTopicId := some "a" }

/-! ### Hierarchy validation -/

/-- `TopicService.hasCircularReference`: walk the parent chain from a start
id keeping a visited set; `true` on a revisit, `false` on a dangling or
absent parent.  The source loop is unbounded, hence the fuel. -/
def hcrFuel (db : DB) : Nat → List String → Option String → Option Bool
  | _, _, none => some false
  | 0, _, some _ => none
  | f + 1, vis, some c =>
    if c ∈ vis then some true
    else
      match findTopicById db c none with
      | none => some false
      | some t => hcrFuel db f (c :: vis) (truthyOpt t.parentTopicId)

/-- The dangling-parent message of `validateHierarchy`. -/
def danglingMsg (id pid : String) : String :=
  "Topic " ++ id ++ " references non-existent parent " ++ pid

/-- The circular-reference message of `validateHierarchy`. -/
def circularMsg (id : String) : String :=
  "Topic " ++ id ++ " has circular reference in hierarchy"

/-- The dangling-parent check of `validateHierarchy` for one topic. -/
def dangOf (db : DB) (t : Topic) : List String :=
  match truthyOpt t.parentTopicId with
  | none => []
  | some p =>
    match findTopicById db p none with
    | none => [danglingMsg t.id p]
    | some _ => []

/-- The per-topic checks of `validateHierarchy`: the dangling-parent error
(when the truthy parent pointer does not resolve), then the cycle error. -/
def topicErrors (db : DB) (fuel : Nat) (t : Topic) : Option (List String) :=
  match hcrFuel db fuel [] (truthyOpt (some t.id)) with
  | none => none
  | some b => some (dangOf db t ++ if b then [circularMsg t.id] else [])

/-- The `for` loop of `validateHierarchy`, accumulating errors in order. -/
def vhAux (db : DB) (fuel : Nat) : List Topic → Option (List String)
  | [] => some []
  | t :: ts =>
    match topicErrors db fuel t, vhAux db fuel ts with
    | some es, some rest => some (es ++ rest)
    | _, _ => none

/-- `TopicService.validateHierarchy`: per latest topic, the dangling-parent
and circular-reference checks; `{isValid := errors.isEmpty, errors}`.  The
`none` case marks a diverging cycle walk, which `validateHierarchy_ok`
shows cannot happen — the visited set stops every walk within the fuel. -/
def validateHierarchySvc (db : DB) : Option (Bool × List String) :=
  match vhAux db (numIds db + 2) (findAllTopics db) with
  | none => none
  | some errors => some (errors.isEmpty, errors)

/-! ### Shortest path (ShortestPathAlgorithm) -/

/-- `PathNode` of the Dijkstra search; `distance = none` is `Infinity`,
`previous` holds the predecessor's id. -/
structure PNode where
  topic : Topic
  distance : Option Nat
  previous : Option String
  visited : Bool
deriving DecidableEq, Repr

/-- `distance < minDistance` with `none` playing `Infinity`. -/
def ltD : Option Nat → Option Nat → Bool
  | some x, some y => x < y
  | some _, none => true
  | none, _ => false

/-- `ShortestPathAlgorithm.getEdgeWeight`: 1 for parent↔child, 2 for
siblings (truthy shared parent), 3 otherwise. -/
def getEdgeWeight (a b : Topic) : Nat :=
  if a.parentTopicId = some b.id ∨ b.parentTopicId = some a.id then 1
  else if (truthyOpt a.parentTopicId).isSome ∧ a.parentTopicId = b.parentTopicId then 2
  else 3

/-- `ShortestPathAlgorithm.getNeighbors`: the parent, the children, then
the siblings (other latest topics sharing a truthy parent). -/
def neighborsOf (db : DB) (t : Topic) : List Topic :=
  (match getParentT db t with
   | some p => [p]
   | none => []) ++
  findTopicsByParentId db t.id ++
  (match truthyOpt t.parentTopicId with
   | some pid => (findTopicsByParentId db pid).filter (fun s => s.id ≠ t.id)
   | none => [])

/-- `Map.get` on the node map. -/
def pnGet (ns : List (String × PNode)) (key : String) : Option PNode :=
  match ns with
  | [] => none
  | (k, v) :: rest => if k = key then some v else pnGet rest key

/-- `Map.set` on the node map. -/
def pnSet (ns : List (String × PNode)) (key : String) (v : PNode) :
    List (String × PNode) :=
  match ns with
  | [] => [(key, v)]
  | (k, w) :: rest => if k = key then (key, v) :: rest else (k, w) :: pnSet rest key v

/-- The inner minimum scan: first unvisited-list node of strictly smallest
finite distance, `none` when every distance is `Infinity`. -/
def findMinNode (ns : List (String × PNode)) (unvisited : List String) :
    Option PNode :=
  unvisited.foldl
    (fun acc nid =>
      match pnGet ns nid with
      | none => acc
      | some nd =>
        match acc with
        | none => if ltD nd.distance none then some nd else none
        | some m => if ltD nd.distance m.distance then some nd else acc)
    none

/-- Mark a node visited. -/
def setVisited (ns : List (String × PNode)) (k : String) : List (String × PNode) :=
  match pnGet ns k with
  | none => ns
  | some nd => pnSet ns k { nd with visited := true }

/-- Relax one derived edge (`newDistance < neighbor.distance` with strict
`<`; ties keep the earlier predecessor).  The current node's distance is
always finite when this runs; the `none` branch is dead code. -/
def relaxOne (cur : PNode) (ns : List (String × PNode)) (nb : Topic) :
    List (String × PNode) :=
  match pnGet ns nb.id with
  | none => ns
  | some nn =>
    if nn.visited then ns
    else
      match cur.distance with
      | none => ns
      | some dcur =>
        if ltD (some (dcur + getEdgeWeight cur.topic nb)) nn.distance then
          pnSet ns nb.id
            { nn with distance := some (dcur + getEdgeWeight cur.topic nb),
                      previous := some cur.topic.id }
        else ns

/-- Relax every derived neighbor edge of the current node, in order. -/
def relaxAll (db : DB) (cur : PNode) (ns : List (String × PNode)) :
    List (String × PNode) :=
  (neighborsOf db cur.topic).foldl (relaxOne cur) ns

/-- `reconstructPath`: follow `previous` pointers from the target,
prepending (`unshift`).  Dijkstra's predecessor pointers never cycle, so
the fuel `ns.length + 1` is never exhausted on states the loop produces. -/
def reconPath (ns : List (String × PNode)) : Nat → Option String → List Topic → List Topic
  | _, none, acc => acc
  | 0, some _, acc => acc
  | f + 1, some i, acc =>
    match pnGet ns i with
    | none => acc
    | some nd => reconPath ns f nd.previous (nd.topic :: acc)

/-- The main Dijkstra loop of `findShortestPath`: pick the unvisited node
of minimum distance, stop when none is reachable, return the reconstructed
path upon visiting the target, else relax the neighbors and continue.
Each iteration removes the chosen node from `unvisited`, so fuel
`|unvisited| + 1` always runs the loop to its own exit. -/
def dijkstraLoop (db : DB) (toId : String) :
    Nat → List (String × PNode) → List String → List Topic
  | 0, _, _ => []
  | f + 1, ns, unvisited =>
    if unvisited.isEmpty then []
    else
      match findMinNode ns unvisited with
      | none => []
      | some cur =>
        let ns1 := setVisited ns cur.topic.id
        if cur.topic.id = toId then reconPath ns1 (ns1.length + 1) (some toId) []
        else dijkstraLoop db toId f (relaxAll db cur ns1) (unvisited.erase cur.topic.id)

/-- `ShortestPathAlgorithm.findShortestPath`. -/
def findShortestPath (db : DB) (fromId toId : String) : List Topic :=
  if fromId = toId then
    match findTopicById db fromId none with
    | some t => [t]
    | none => []
  else
    match findTopicById db fromId none, findTopicById db toId none with
    | some _, some _ =>
      let all := findAllTopics db
      dijkstraLoop db toId (all.length + 1)
        (all.map (fun t =>
          (t.id, { topic := t,
                   distance := if t.id = fromId then some 0 else none,
                   previous := none, visited := false })))
        (all.map (fun t => t.id))
    | _, _ => []

/-- Total weight of a path under `getEdgeWeight`. -/
def pathWeight : List Topic → Nat
  | [] => 0
  | [_] => 0
  | a :: b :: rest => getEdgeWeight a b + pathWeight (b :: rest)

/-- Parent `a` with two children `b`, `c` — the sibling configuration of
claim C2, in creation order. -/
def dbABC : DB :=
  [("a", [{ id := "a", name := "A", content := "c", version := 1,
            parentTopicId := none }]),
   ("b", [{ id := "b", name := "B", content := "c", version := 1,
            parentTopicId := some "a" }]),
   ("c", [{ id := "c", name := "C", content := "c", version := 1,
            parentTopicId := some "a" }])]

/-- The parent topic of `dbABC`. -/
def topicA : Topic :=
  { id := "a", name := "A", content := "c", version := 1, parentTopicId := none }

/-- The first child of `dbABC`. -/
def topicB : Topic :=
  { id := "b", name := "B", content := "c", version := 1, parentTopicId := some "a" }

/-- The second child of `dbABC`. -/
def topicC : Topic :=
  { id := "c", name := "C", content := "c", version := 1, parentTopicId := some "a" }

/-! ### All-paths enumeration (ShortestPathAlgorithm.findAllPaths) -/

/-- `dfsAllPaths`: depth-first enumeration with mark/unmark backtracking.
The source marks `current.id` visited before the neighbor loop and unmarks
it on exit, so each recursive call sees exactly the ids of the path so
far; functionally the visited set is threaded as `cur.id :: vis`.  The
source recursion is bounded only by the `path.length > maxDepth` prune, so
the model takes fuel; `findAllPaths` grants `maxDepth + 1`, which the
prune makes sufficient on every call it generates. -/
def dfsAllPaths (db : DB) (targetId : String) (maxDepth : Nat) :
    Nat → Topic → List Topic → List String → List (List Topic)
  | 0, _, _, _ => []
  | fuel + 1, cur, path, vis =>
    if path.length > maxDepth then []
    else if cur.id = targetId then [path]
    else
      ((neighborsOf db cur).map (fun n =>
        if n.id ∈ (cur.id :: vis) then []
        else dfsAllPaths db targetId maxDepth fuel n (path ++ [n]) (cur.id :: vis))).flatten

/-- The sort comparator of `paths.sort((a, b) => a.length - b.length)`. -/
def lenRel (p q : List Topic) : Prop := p.length ≤ q.length

instance : DecidableRel lenRel := fun p q => Nat.decLe p.length q.length

instance : IsTotal (List Topic) lenRel := ⟨fun p q => Nat.le_total p.length q.length⟩

instance : IsTrans (List Topic) lenRel := ⟨fun _ _ _ h1 h2 => Nat.le_trans h1 h2⟩

/-- `ShortestPathAlgorithm.findAllPaths`: trivial path for `fromId = toId`,
else the depth-first enumeration, stably sorted ascending by length. -/
def findAllPaths (db : DB) (fromId toId : String) (maxDepth : Nat) :
    List (List Topic) :=
  if fromId = toId then
    match findTopicById db fromId none with
    | some t => [[t]]
    | none => []
  else
    match findTopicById db fromId none with
    | none => []
    | some ft =>
      (dfsAllPaths db toId maxDepth (maxDepth + 1) ft [ft] []).insertionSort lenRel

/-- A simple path in the derived neighbor graph: starts at `ft`, each step
moves to a `getNeighbors` element, repeats no topic id, and ends at the
target id. -/
def SimplePathTo (db : DB) (ft : Topic) (toId : String) (q : List Topic) : Prop :=
  q.head? = some ft ∧
  List.Chain' (fun x y => y ∈ neighborsOf db x) q ∧
  (q.map Topic.id).Nodup ∧
  (q.getLast?).map Topic.id = some toId

/-- The parent topic `a` of `dbPC`. -/
def topicPCA : Topic :=
  { id := "a", name := "A", content := "ca", version := 1, parentTopicId := none }

/-- Cyclic pair a↔b plus a topic `c` with a dangling parent `"zz"`. -/
def dbC9 : DB :=
  [("a", [{ id := "a", name := "A", content := "c", version := 1,
            parentTopicId := some "b" }]),
   ("b", [{ id := "b", name := "B", content := "c", version := 1,
            parentTopicId := some "a" }]),
   ("c", [{ id := "c", name := "C", content := "c", version := 1,
            parentTopicId := some "zz" }])]

theorem dbLookup_mem {db : DB} {k : String} {vs : List Topic}
    (h : dbLookup db k = some vs) : (k, vs) ∈ db := by
  induction db with
  | nil => simp [dbLookup] at h
  | cons e rest ih =>
    obtain ⟨k0, v0⟩ := e
    simp only [dbLookup] at h
    split at h
    · rename_i hk
      cases h
      subst hk
      exact List.mem_cons_self _ _
    · exact List.mem_cons_of_mem _ (ih h)

theorem dbLookup_eq_none {db : DB} {k : String} :
    dbLookup db k = none ↔ k ∉ db.map Prod.fst := by
  induction db with
  | nil => simp [dbLookup]
  | cons e rest ih =>
    obtain ⟨k0, v0⟩ := e
    by_cases hk : k0 = k
    · subst hk
      simp [dbLookup]
    · have hk' : ¬ k = k0 := fun hh => hk hh.symm
      simp [dbLookup, hk, hk', ih]

theorem dbSet_map_fst (db : DB) (k : String) (vs : List Topic) :
    (dbSet db k vs).map Prod.fst =
      if k ∈ db.map Prod.fst then db.map Prod.fst else db.map Prod.fst ++ [k] := by
  induction db with
  | nil => simp [dbSet]
  | cons e rest ih =>
    obtain ⟨k0, v0⟩ := e
    simp only [dbSet]
    by_cases hk : k0 = k
    · subst hk
      simp
    · have hk' : ¬ k = k0 := fun hh => hk hh.symm
      simp only [if_neg hk, List.map_cons]
      rw [ih]
      by_cases hmem : k ∈ rest.map Prod.fst
      · simp [hmem, hk']
      · simp [hmem, hk']

theorem mem_dbSet {db : DB} {k : String} {vs : List Topic} {e : String × List Topic}
    (h : e ∈ dbSet db k vs) : e ∈ db ∨ e = (k, vs) := by
  induction db with
  | nil => simpa [dbSet] using h
  | cons e0 rest ih =>
    obtain ⟨k0, v0⟩ := e0
    simp only [dbSet] at h
    split at h
    · rcases List.mem_cons.1 h with h1 | h1
      · right; exact h1
      · left; exact List.mem_cons_of_mem _ h1
    · rcases List.mem_cons.1 h with h1 | h1
      · left; exact h1 ▸ List.mem_cons_self _ _
      · rcases ih h1 with h2 | h2
        · left; exact List.mem_cons_of_mem _ h2
        · right; exact h2

theorem dbSet_nodup {db : DB} {k : String} {vs : List Topic}
    (h : (db.map Prod.fst).Nodup) : ((dbSet db k vs).map Prod.fst).Nodup := by
  rw [dbSet_map_fst]
  split
  · exact h
  · rename_i hmem
    simp [List.nodup_append, h, hmem]

theorem dbLookup_dbSet_self (db : DB) (k : String) (vs : List Topic) :
    dbLookup (dbSet db k vs) k = some vs := by
  induction db with
  | nil => simp [dbSet, dbLookup]
  | cons e rest ih =>
    obtain ⟨k0, v0⟩ := e
    simp only [dbSet]
    by_cases hk : k0 = k
    · subst hk
      simp [dbLookup]
    · simp [dbLookup, hk, ih]

theorem dbLookup_dbSet_other (db : DB) (k : String) (vs : List Topic) {j : String}
    (h : j ≠ k) : dbLookup (dbSet db k vs) j = dbLookup db j := by
  have h' : ¬ k = j := fun hh => h hh.symm
  induction db with
  | nil => simp [dbSet, dbLookup, h']
  | cons e rest ih =>
    obtain ⟨k0, v0⟩ := e
    simp only [dbSet]
    by_cases hk : k0 = k
    · subst hk
      simp [dbLookup, h']
    · by_cases hj : k0 = j
      · subst hj
        simp [dbLookup, hk]
      · simp [dbLookup, hk, hj, ih]

theorem dbDelete_sublist (db : DB) (k : String) : (dbDelete db k).1.Sublist db := by
  induction db with
  | nil => simp [dbDelete]
  | cons e rest ih =>
    obtain ⟨k0, v0⟩ := e
    simp only [dbDelete]
    split
    · exact (List.sublist_cons_self _ _)
    · exact List.Sublist.cons₂ _ ih

theorem InvDB_sublist {db db' : DB} (hs : db'.Sublist db) (h : InvDB db) : InvDB db' := by
  refine ⟨List.Nodup.sublist (List.Sublist.map _ hs) h.1, ?_⟩
  intro e he
  exact h.2 e (hs.subset he)

theorem deleteLoop_inv (ids : List String) :
    ∀ {db : DB}, InvDB db → InvDB (deleteLoop db ids).1 := by
  induction ids with
  | nil => intro db h; simpa [deleteLoop] using h
  | cons i rest ih =>
    intro db h
    simp only [deleteLoop]
    exact ih (InvDB_sublist (dbDelete_sublist db i) h)

theorem findTopicById_latest (db : DB) (id : String) :
    findTopicById db id none = (dbLookup db id).bind (fun vs => vs.getLast?) := by
  unfold findTopicById
  cases dbLookup db id with
  | none => rfl
  | some vs =>
    cases vs with
    | nil => simp
    | cons a l => simp

/-- The version list of an entry satisfying the `1..N` invariant is sorted
strictly, its members are below `N + 1`, and its last element has version
`N`. -/
theorem entry_version_facts {vs : List Topic} {n : Nat}
    (h : vs.map Topic.version = List.range' 1 n) :
    n = vs.length ∧ (∀ v ∈ vs, v.version < n + 1) ∧
      List.Pairwise (fun a b : Topic => a.version < b.version) vs := by
  have hlen : n = vs.length := by
    have := congrArg List.length h
    simpa using this.symm
  refine ⟨hlen, ?_, ?_⟩
  · intro v hv
    have : v.version ∈ vs.map Topic.version := List.mem_map_of_mem _ hv
    rw [h] at this
    have := (List.mem_range'_1).1 this
    omega
  · have := List.pairwise_lt_range' 1 n
    rw [← h] at this
    exact (List.pairwise_map).1 this

theorem saveTopic_append_eq (db : DB) (t : Topic) {vs : List Topic}
    (hl : dbLookup db t.id = some vs)
    (hgt : ∀ v ∈ vs, v.version < t.version)
    (hsorted : List.Pairwise (fun a b : Topic => a.version < b.version) vs) :
    saveTopic db t = dbSet db t.id (vs ++ [t]) := by
  unfold saveTopic
  rw [hl]
  simp only [Option.getD_some]
  have hidx : vs.findIdx? (fun v => v.version = t.version) = none := by
    rw [List.findIdx?_eq_none_iff]
    intro v hv
    simp only [decide_eq_false_iff_not]
    exact Nat.ne_of_lt (hgt v hv)
  rw [hidx]
  have hpw : List.Sorted versionRel (vs ++ [t]) := by
    unfold List.Sorted
    rw [List.pairwise_append]
    refine ⟨?_, by simp, ?_⟩
    · exact hsorted.imp (fun hab => by unfold versionRel; omega)
    · intro a ha b hb
      simp only [List.mem_singleton] at hb
      subst hb
      exact Nat.le_of_lt (hgt a ha)
  rw [hpw.insertionSort_eq]

/-- `saveTopic` of a version-1 snapshot preserves the store invariant: a
fresh id starts the list `[1]`, a colliding id overwrites its version 1 in
place. -/
theorem saveTopic_inv_v1 {db : DB} {t : Topic} (hinv : InvDB db)
    (hv : t.version = 1) : InvDB (saveTopic db t) := by
  unfold saveTopic
  cases hl : dbLookup db t.id with
  | none =>
    simp only [Option.getD_none, List.findIdx?_nil, List.nil_append]
    have hms : List.insertionSort versionRel [t] = [t] := by
      apply List.Sorted.insertionSort_eq
      simp
    rw [hms]
    refine ⟨dbSet_nodup hinv.1, ?_⟩
    intro e he
    rcases mem_dbSet he with h' | h'
    · exact hinv.2 e h'
    · subst h'
      exact ⟨by simp, by simp [hv]⟩
  | some vs =>
    simp only [Option.getD_some]
    have hok := hinv.2 _ (dbLookup_mem hl)
    obtain ⟨hids, hvers⟩ := hok
    cases vs with
    | nil =>
      simp only [List.findIdx?_nil, List.nil_append]
      have hms : List.insertionSort versionRel [t] = [t] := by
        apply List.Sorted.insertionSort_eq
        simp
      rw [hms]
      refine ⟨dbSet_nodup hinv.1, ?_⟩
      intro e he
      rcases mem_dbSet he with h' | h'
      · exact hinv.2 e h'
      · subst h'
        exact ⟨by simp, by simp [hv]⟩
    | cons v0 vs' =>
      have hvers' : v0.version :: vs'.map Topic.version = 1 :: List.range' 2 vs'.length := by
        simpa [List.range'_succ] using hvers
      have hv0 : v0.version = 1 := by
        have h1 := hvers'
        simp only [List.cons.injEq] at h1
        exact h1.1
      have htail : vs'.map Topic.version = List.range' 2 vs'.length := by
        have h1 := hvers'
        simp only [List.cons.injEq] at h1
        exact h1.2
      have hfind : (v0 :: vs').findIdx? (fun v => v.version = t.version) = some 0 := by
        rw [List.findIdx?_cons]
        simp [hv0, hv]
      rw [hfind]
      simp only [List.set_cons_zero]
      refine ⟨dbSet_nodup hinv.1, ?_⟩
      intro e he
      rcases mem_dbSet he with h' | h'
      · exact hinv.2 e h'
      · subst h'
        constructor
        · intro v hvmem
          rcases List.mem_cons.1 hvmem with h'' | h''
          · subst h''; rfl
          · exact hids v (List.mem_cons_of_mem _ h'')
        · simp only [List.map_cons, List.length_cons]
          rw [List.range'_succ, hv, htail]

/-- `saveTopic` of the next version number appends it, preserving the store
invariant. -/
theorem saveTopic_inv_append {db : DB} {t : Topic} {vs : List Topic} (hinv : InvDB db)
    (hl : dbLookup db t.id = some vs) (hv : t.version = vs.length + 1) :
    InvDB (saveTopic db t) := by
  have hok := hinv.2 _ (dbLookup_mem hl)
  have hids : ∀ v ∈ vs, v.id = t.id := hok.1
  have hvers : vs.map Topic.version = List.range' 1 vs.length := hok.2
  obtain ⟨-, hbound, hsorted⟩ := entry_version_facts hvers
  have heq := saveTopic_append_eq db t hl (fun v hvm => by
    rw [hv]
    exact hbound v hvm) hsorted
  rw [heq]
  refine ⟨dbSet_nodup hinv.1, ?_⟩
  intro e he
  rcases mem_dbSet he with h' | h'
  · exact hinv.2 e h'
  · subst h'
    constructor
    · intro v hvmem
      rcases List.mem_append.1 hvmem with h'' | h''
      · exact hids v h''
      · simp only [List.mem_singleton] at h''
        subst h''
        rfl
    · simp only [List.map_append, List.length_append, List.map_cons, List.map_nil,
        List.length_cons, List.length_nil]
      rw [hvers, hv, List.range'_concat]
      simp [Nat.add_comm]

/-- From the invariant entry facts, the latest snapshot of a nonempty
version list has version `N = length` and carries the entry's id. -/
theorem latest_of_entry {db : DB} {id : String} {vs : List Topic} {latest : Topic}
    (hinv : InvDB db) (hl : dbLookup db id = some vs) (hfind : vs.getLast? = some latest) :
    latest.id = id ∧ latest.version = vs.length := by
  have hok := hinv.2 _ (dbLookup_mem hl)
  have hids : ∀ v ∈ vs, v.id = id := hok.1
  have hvers : vs.map Topic.version = List.range' 1 vs.length := hok.2
  refine ⟨hids latest (List.mem_of_mem_getLast? hfind), ?_⟩
  have hmap := List.getLast?_map Topic.version vs
  rw [hfind, hvers] at hmap
  cases hvs : vs.length with
  | zero =>
    rw [hvs] at hmap
    simp at hmap
  | succ m =>
    rw [hvs, List.range'_concat, List.getLast?_concat] at hmap
    simp at hmap
    omega

/-- Decompose a successful `saveRepo`. -/
theorem saveRepo_ok {db db' : DB} {t t' : Topic}
    (h : saveRepo db t = .ok (db', t')) : db' = saveTopic db t ∧ t' = t := by
  unfold saveRepo at h
  by_cases herr : (getValidationErrors t).isEmpty
  · rw [if_pos herr] at h
    have h2 := Except.ok.inj h
    exact ⟨(congrArg Prod.fst h2).symm, (congrArg Prod.snd h2).symm⟩
  · rw [if_neg herr] at h
    cases h

/-- Every reachable store satisfies the invariant. -/
theorem reachable_inv {db : DB} (h : Reachable db) : InvDB db := by
  induction h with
  | empty => exact ⟨by simp, by simp⟩
  | create db db' t fid name content pid hr hop ih =>
    unfold createSvc at hop
    cases hfac : createTopicFactory fid name content pid with
    | error e => rw [hfac] at hop; cases hop
    | ok t0 =>
      rw [hfac] at hop
      obtain ⟨hdb, -⟩ := saveRepo_ok hop
      subst hdb
      have hv : t0.version = 1 := by
        unfold createTopicFactory at hfac
        split at hfac
        · cases hfac
        · cases hfac
          rfl
      exact saveTopic_inv_v1 ih hv
  | update db db' t id d hr hop ih =>
    unfold updateSvc at hop
    cases hfind : findTopicById db id none with
    | none => rw [hfind] at hop; cases hop
    | some latest =>
      rw [hfind] at hop
      obtain ⟨hdb, -⟩ := saveRepo_ok hop
      subst hdb
      rw [findTopicById_latest] at hfind
      cases hl : dbLookup db id with
      | none => rw [hl] at hfind; cases hfind
      | some vs =>
        rw [hl] at hfind
        simp only [Option.some_bind] at hfind
        obtain ⟨hlid, hlv⟩ := latest_of_entry ih hl hfind
        have hl1 : dbLookup db (applyUpdate latest d).id = some vs := by
          have hid : (applyUpdate latest d).id = id := by
            simp [applyUpdate, hlid]
          rw [hid, hl]
        have hv1 : (applyUpdate latest d).version = vs.length + 1 := by
          simp [applyUpdate, hlv]
        exact saveTopic_inv_append ih hl1 hv1
  | move db db' t id p hr hop ih =>
    unfold moveTopicSvc at hop
    split at hop
    · simp at hop
    · rename_i topic hfind
      have hsave : applyMove db topic p = .ok (db', t) := by
        split at hop
        · exact Option.some.inj hop
        · split at hop
          · simp at hop
          · simp at hop
          · exact Option.some.inj hop
      unfold applyMove at hsave
      obtain ⟨hdb, -⟩ := saveRepo_ok hsave
      subst hdb
      rw [findTopicById_latest] at hfind
      cases hl : dbLookup db id with
      | none => rw [hl] at hfind; cases hfind
      | some vs =>
        rw [hl] at hfind
        simp only [Option.some_bind] at hfind
        obtain ⟨hlid, hlv⟩ := latest_of_entry ih hl hfind
        have hl1 : dbLookup db (Topic.mk topic.id topic.name topic.content
            (topic.version + 1) (truthyOpt p)).id = some vs := by
          simpa [hlid] using hl
        have hv1 : (Topic.mk topic.id topic.name topic.content
            (topic.version + 1) (truthyOpt p)).version = vs.length + 1 := by
          simp [hlv]
        exact saveTopic_inv_append ih hl1 hv1
  | del db id hr ih =>
    unfold deleteSvc
    split
    · exact ih
    · exact deleteLoop_inv _ ih

/-! ### Claim C7: version numbers are 1..N with no gaps -/

/-- C7: in every store reachable from the empty store by the core
operations create, update, move and delete, `findVersions(id)` returns a
list whose version numbers are exactly `1..N` ascending with no gaps
(empty for an unknown id). -/
theorem findVersions_contiguous {db : DB} (h : Reachable db) (id : String) :
    (findTopicVersions db id).map Topic.version =
      List.range' 1 (findTopicVersions db id).length := by
  have hinv := reachable_inv h
  unfold findTopicVersions
  cases hl : dbLookup db id with
  | none => simp
  | some vs =>
    have hok := hinv.2 _ (dbLookup_mem hl)
    simpa using hok.2

/-- Witness for C7: the store after one create holds versions `[1]`. -/
theorem findVersions_contiguous_witness :
    (findTopicVersions
        [("t1", [{ id := "t1", name := "A", content := "c", version := 1,
                   parentTopicId := none }])] "t1").map Topic.version =
      List.range' 1 (findTopicVersions
        [("t1", [{ id := "t1", name := "A", content := "c", version := 1,
                   parentTopicId := none }])] "t1").length := by
  exact findVersions_contiguous
    (Reachable.create [] _
      { id := "t1", name := "A", content := "c", version := 1, parentTopicId := none }
      "t1" "A" "c" none Reachable.empty rfl) "t1"

/-! ### Claim C1: delete removes all versions -/

/-- C1 (code bug): the spec says `delete(id)` removes every version of an
existing id and returns true, but `TopicService.delete` looks the versions
up under `topic.name` instead of `topic.id`, finds none, deletes nothing and
returns false: on the one-topic store `dbC1` the call leaves the store
intact, returns false, and `findVersions` still answers the old version. -/
theorem delete_name_lookup_bug :
    deleteSvc dbC1 "t1" = (dbC1, false) ∧ findTopicVersions dbC1 "t1" ≠ [] := by
  constructor
  · rfl
  · decide

/-! ### Claim C10: repository save validates before mutating -/

/-- C10: `TopicRepository.save` is atomic with respect to validation: a
topic with an empty/whitespace name, a name longer than 255 characters, an
empty/whitespace content, or a version below 1 makes `save` throw a
validation error before the database is touched, so every id's stored
version list is unchanged; and when validation passes the save goes
through to `saveTopic`. -/
theorem save_validates_before_mutating (db : DB) (t : Topic) :
    ((isBlank t.name ∨ 255 < t.name.length ∨ isBlank t.content ∨ t.version < 1) →
      (∃ msgs, saveRepo db t = .error (.validationFailed msgs) ∧ msgs ≠ []) ∧
        saveRepoState db t = db ∧
        ∀ i, findTopicVersions (saveRepoState db t) i = findTopicVersions db i) ∧
    (getValidationErrors t = [] → saveRepo db t = .ok (saveTopic db t, t)) := by
  constructor
  · intro h
    have herr : ¬ (getValidationErrors t).isEmpty := by
      unfold getValidationErrors
      rcases h with h | h | h | h
      · simp [h]
      · rcases Nat.lt_or_ge 255 t.name.length with _ | hle
        · simp [h]
        · omega
      · simp [h]
      · simp [h]
    have hsave : saveRepo db t = .error (.validationFailed (getValidationErrors t)) := by
      unfold saveRepo
      simp [herr]
    refine ⟨⟨getValidationErrors t, hsave, ?_⟩, ?_, ?_⟩
    · intro hnil
      rw [hnil] at herr
      simp at herr
    · unfold saveRepoState
      rw [hsave]
    · intro i
      unfold saveRepoState
      rw [hsave]
  · intro h
    unfold saveRepo
    simp [h]

/-- Witness for C10 at a concrete invalid topic (empty name). -/
theorem save_validates_before_mutating_witness :
    (∃ msgs,
        saveRepo dbC1 { id := "x", name := "", content := "c", version := 1,
                        parentTopicId := none } = .error (.validationFailed msgs) ∧
          msgs ≠ []) ∧
      saveRepoState dbC1 { id := "x", name := "", content := "c", version := 1,
                           parentTopicId := none } = dbC1 := by
  have h := (save_validates_before_mutating dbC1
    { id := "x", name := "", content := "c", version := 1, parentTopicId := none }).1
    (by left; decide)
  exact ⟨h.1, h.2.1⟩

/-! ### Claims C6 and C8: update appends a new version -/

theorem pairwise_le_getLast {l : List Topic} {x : Topic}
    (hp : List.Pairwise (fun a b : Topic => a.version < b.version) l)
    (hx : l.getLast? = some x) : ∀ v ∈ l, v.version ≤ x.version := by
  induction l with
  | nil => cases hx
  | cons a tl ih =>
    intro v hv
    cases tl with
    | nil =>
      have hax : a = x := by simpa using hx
      have hva : v = a := by simpa using hv
      subst hax
      subst hva
      exact Nat.le_refl _
    | cons b l2 =>
      have hx' : (b :: l2).getLast? = some x := by
        simpa [List.getLast?_cons_cons] using hx
      rw [List.pairwise_cons] at hp
      rcases List.mem_cons.1 hv with h1 | h2
      · subst h1
        exact Nat.le_of_lt (hp.1 x (List.mem_of_mem_getLast? hx'))
      · exact ih hp.2 hx' v h2

theorem find?_append_left {p : Topic → Bool} {l1 l2 : List Topic} {a : Topic}
    (h : l1.find? p = some a) : (l1 ++ l2).find? p = some a := by
  rw [List.find?_append, h]
  rfl

/-- `findById` with an explicit version is a `find?` over the id's list. -/
theorem findTopicById_some_version {db : DB} {id : String} {k : Nat} :
    findTopicById db id (some k) =
      ((dbLookup db id).getD []).find? (fun t => t.version = k) := by
  unfold findTopicById
  cases dbLookup db id with
  | none => rfl
  | some vs =>
    cases vs with
    | nil => rfl
    | cons a l => simp

/-- The update path, decomposed: on a well-formed entry a successful update
appends `applyUpdate latest d` under the same id and touches nothing else. -/
theorem update_core {db db' : DB} {id : String} {d : UpdateData} {t' : Topic}
    (hids : ∀ v ∈ findTopicVersions db id, v.id = id)
    (hsorted : List.Pairwise (fun a b : Topic => a.version < b.version)
      (findTopicVersions db id))
    (hok : updateSvc db id d = .ok (db', t')) :
    ∃ latest, (findTopicVersions db id).getLast? = some latest ∧
      t' = applyUpdate latest d ∧
      db' = dbSet db id (findTopicVersions db id ++ [t']) := by
  unfold updateSvc at hok
  cases hfind : findTopicById db id none with
  | none => rw [hfind] at hok; cases hok
  | some latest =>
    rw [hfind] at hok
    obtain ⟨hdb, ht⟩ := saveRepo_ok hok
    rw [findTopicById_latest] at hfind
    cases hl : dbLookup db id with
    | none => rw [hl] at hfind; cases hfind
    | some vs =>
      rw [hl] at hfind
      simp only [Option.some_bind] at hfind
      have hvs : findTopicVersions db id = vs := by
        unfold findTopicVersions
        rw [hl]
        rfl
      rw [hvs] at hids hsorted ⊢
      have hlatid : latest.id = id := hids latest (List.mem_of_mem_getLast? hfind)
      have hle := pairwise_le_getLast hsorted hfind
      have htid : (applyUpdate latest d).id = id := by
        simp [applyUpdate, hlatid]
      have hlk : dbLookup db (applyUpdate latest d).id = some vs := by
        rw [htid, hl]
      have heq := saveTopic_append_eq db (applyUpdate latest d) hlk
        (fun v hvm => by
          have h1 := hle v hvm
          have h2 : (applyUpdate latest d).version = latest.version + 1 := rfl
          omega) hsorted
      refine ⟨latest, hfind, ht, ?_⟩
      rw [hdb, ht, heq, htid]

/-- C6: `update` never mutates a previously returned snapshot.  In every
reachable store, after a successful `update(id, d)` every snapshot that
`findById(j, k)` answered before is answered unchanged afterwards, and the
id's version list has merely been extended by the one new snapshot. -/
theorem update_never_mutates {db db' : DB} {id : String} {d : UpdateData} {t' : Topic}
    (hr : Reachable db) (hok : updateSvc db id d = .ok (db', t')) :
    (∀ j k t0, findTopicById db j (some k) = some t0 →
      findTopicById db' j (some k) = some t0) ∧
      findTopicVersions db' id = findTopicVersions db id ++ [t'] := by
  have hinv := reachable_inv hr
  have hids : ∀ v ∈ findTopicVersions db id, v.id = id := by
    unfold findTopicVersions
    cases hl : dbLookup db id with
    | none => simp
    | some vs => simpa using (hinv.2 _ (dbLookup_mem hl)).1
  have hsorted : List.Pairwise (fun a b : Topic => a.version < b.version)
      (findTopicVersions db id) := by
    unfold findTopicVersions
    cases hl : dbLookup db id with
    | none => simp
    | some vs =>
      have hvers := (hinv.2 _ (dbLookup_mem hl)).2
      simpa using (entry_version_facts (by simpa using hvers)).2.2
  obtain ⟨latest, hlast, ht, hdb⟩ := update_core hids hsorted hok
  subst hdb
  constructor
  · intro j k t0 h0
    rw [findTopicById_some_version] at h0 ⊢
    by_cases hj : j = id
    · subst hj
      rw [dbLookup_dbSet_self]
      cases hl : dbLookup db j with
      | none =>
        rw [hl] at h0
        simp at h0
      | some vs =>
        rw [hl] at h0
        simp only [Option.getD_some] at h0 ⊢
        have hvs : findTopicVersions db j = vs := by
          unfold findTopicVersions
          rw [hl]
          rfl
        rw [hvs]
        exact find?_append_left h0
    · rw [dbLookup_dbSet_other _ _ _ hj]
      exact h0
  · unfold findTopicVersions
    rw [dbLookup_dbSet_self]
    rfl

/-- Witness for C6: updating the one-topic store appends version 2 and
leaves the stored version-1 snapshot untouched. -/
theorem update_never_mutates_witness :
    (∀ j k t0, findTopicById dbC1 j (some k) = some t0 →
      findTopicById
        (dbSet dbC1 "t1"
          (findTopicVersions dbC1 "t1" ++
            [applyUpdate { id := "t1", name := "A", content := "body", version := 1,
                           parentTopicId := none }
              { name := some "B", content := none, parentTopicId := none }]))
        j (some k) = some t0) ∧
    findTopicVersions
        (dbSet dbC1 "t1"
          (findTopicVersions dbC1 "t1" ++
            [applyUpdate { id := "t1", name := "A", content := "body", version := 1,
                           parentTopicId := none }
              { name := some "B", content := none, parentTopicId := none }]))
        "t1" =
      findTopicVersions dbC1 "t1" ++
        [applyUpdate { id := "t1", name := "A", content := "body", version := 1,
                       parentTopicId := none }
          { name := some "B", content := none, parentTopicId := none }] := by
  exact update_never_mutates
    (Reachable.create [] dbC1
      { id := "t1", name := "A", content := "body", version := 1, parentTopicId := none }
      "t1" "A" "body" none Reachable.empty rfl)
    (show updateSvc dbC1 "t1" { name := some "B", content := none, parentTopicId := none }
        = .ok (_, _) from rfl)

/-- `findById` without a version answers the last stored snapshot. -/
theorem findLatest_eq_getLast (db : DB) (id : String) :
    findTopicById db id none = (findTopicVersions db id).getLast? := by
  rw [findTopicById_latest]
  unfold findTopicVersions
  cases dbLookup db id with
  | none => rfl
  | some vs => rfl

/-- In a reachable store every entry files snapshots under their own id,
sorted strictly by version. -/
theorem reachable_entry_sorted (db : DB) (id : String) (hr : Reachable db) :
    (∀ v ∈ findTopicVersions db id, v.id = id) ∧
      List.Pairwise (fun a b : Topic => a.version < b.version)
        (findTopicVersions db id) := by
  have hinv := reachable_inv hr
  unfold findTopicVersions
  cases hl : dbLookup db id with
  | none => simp
  | some vs =>
    constructor
    · simpa using (hinv.2 _ (dbLookup_mem hl)).1
    · have hvers := (hinv.2 _ (dbLookup_mem hl)).2
      simpa using (entry_version_facts (by simpa using hvers)).2.2

/-- C8 counterexample: on the one-topic store the update of the *known* id
`"t1"` with an empty name does not return a new topic as the claim's
"otherwise" branch demands — it throws a validation error. -/
theorem update_blank_name_rejected :
    updateSvc dbC1 "t1" { name := some "", content := none, parentTopicId := none } =
      .error (.validationFailed ["Name is required"]) := by
  rfl

/-- C8 (amended): `update(id, d)` fails NotFound when the id is unknown;
fails with a Validation error when the supplied or carried-forward name is
blank or overlong or the content is blank; otherwise the returned topic
keeps the id, has version = previous latest version + 1 (the previous
latest being maximal among stored versions), and takes each field from `d`
when supplied, carried forward from the latest snapshot when not. -/
theorem update_spec (db : DB) (id : String) (d : UpdateData) (hr : Reachable db) :
    (findTopicVersions db id = [] → updateSvc db id d = .error (.notFound id)) ∧
    (∀ latest, (findTopicVersions db id).getLast? = some latest →
      (isBlank (d.name.getD latest.name) ∨ 255 < (d.name.getD latest.name).length ∨
          isBlank (d.content.getD latest.content)) →
        ∃ msgs, updateSvc db id d = .error (.validationFailed msgs) ∧ msgs ≠ []) ∧
    (∀ db' t', updateSvc db id d = .ok (db', t') →
      ∃ latest, (findTopicVersions db id).getLast? = some latest ∧
        (∀ v ∈ findTopicVersions db id, v.version ≤ latest.version) ∧
        t'.id = id ∧
        t'.version = latest.version + 1 ∧
        t'.name = d.name.getD latest.name ∧
        t'.content = d.content.getD latest.content ∧
        t'.parentTopicId = (match d.parentTopicId with
          | some p => some p
          | none => latest.parentTopicId)) := by
  obtain ⟨hids, hsorted⟩ := reachable_entry_sorted db id hr
  refine ⟨?_, ?_, ?_⟩
  · intro hempty
    unfold updateSvc
    rw [findLatest_eq_getLast, hempty]
    rfl
  · intro latest hlast hbad
    have hfind : findTopicById db id none = some latest := by
      rw [findLatest_eq_getLast, hlast]
    have herr : ¬ (getValidationErrors (applyUpdate latest d)).isEmpty := by
      unfold getValidationErrors applyUpdate
      rcases hbad with h | h | h
      · simp [h]
      · rcases Nat.lt_or_ge 255 (d.name.getD latest.name).length with _ | hle
        · simp [h]
        · omega
      · simp [h]
    have hupd : updateSvc db id d = saveRepo db (applyUpdate latest d) := by
      unfold updateSvc
      rw [hfind]
    rw [hupd]
    unfold saveRepo
    rw [if_neg herr]
    refine ⟨_, rfl, ?_⟩
    intro hnil
    rw [hnil] at herr
    simp at herr
  · intro db' t' hok
    obtain ⟨latest, hlast, ht, -⟩ := update_core hids hsorted hok
    subst ht
    have hlatid : latest.id = id := hids latest (List.mem_of_mem_getLast? hlast)
    exact ⟨latest, hlast, pairwise_le_getLast hsorted hlast,
      by simp [applyUpdate, hlatid], rfl, rfl, rfl, rfl⟩

/-- Witness for C8 at an unknown id on a reachable store. -/
theorem update_spec_witness :
    updateSvc dbC1 "zz" { name := none, content := none, parentTopicId := none } =
      .error (.notFound "zz") :=
  (update_spec dbC1 "zz" { name := none, content := none, parentTopicId := none }
    (Reachable.create [] dbC1
      { id := "t1", name := "A", content := "body", version := 1, parentTopicId := none }
      "t1" "A" "body" none Reachable.empty rfl)).1 rfl

/-! ### Claims C3 and C5: ancestor walks and cycle prevention -/

theorem chainFuel_succ (db : DB) (f : Nat) (p : String) :
    chainFuel db (f + 1) p =
      match findTopicById db p none with
      | none => some ()
      | some t =>
        match truthyOpt t.parentTopicId with
        | none => some ()
        | some q => chainFuel db f q := rfl

theorem wccFuel_succ (db : DB) (topicId : String) (f : Nat) (cur : String) :
    wccFuel db topicId (f + 1) cur =
      if cur = topicId then some true
      else
        match findTopicById db cur none with
        | none => some false
        | some t =>
          match truthyOpt t.parentTopicId with
          | none => some false
          | some q => wccFuel db topicId f q := rfl

theorem getAncestorsFuel_none (db : DB) (f : Nat) (acc : List Topic) :
    getAncestorsFuel db f none acc = some acc := by
  cases f <;> rfl

theorem chainFuel_mono {db : DB} {f : Nat} {p : String}
    (h : (chainFuel db f p).isSome) : (chainFuel db (f + 1) p).isSome := by
  induction f generalizing p with
  | zero => simp [chainFuel] at h
  | succ g ih =>
    rw [chainFuel_succ] at h
    rw [chainFuel_succ]
    cases hfp : findTopicById db p none with
    | none => simp [hfp]
    | some t =>
      simp only [hfp] at h ⊢
      cases ht : truthyOpt t.parentTopicId with
      | none => simp [ht]
      | some q =>
        simp only [ht] at h ⊢
        exact ih h

theorem chainFuel_mono_le {db : DB} {f g : Nat} {p : String} (hfg : f ≤ g)
    (h : (chainFuel db f p).isSome) : (chainFuel db g p).isSome := by
  induction hfg with
  | refl => exact h
  | step hle ih => exact chainFuel_mono ih

/-- A terminating bare chain walk makes the ancestors loop terminate with
the same fuel, whatever has been accumulated. -/
theorem chainFuel_to_ancestors {db : DB} {f : Nat} {p : String}
    (h : (chainFuel db f p).isSome) :
    ∀ acc, (getAncestorsFuel db f (findTopicById db p none) acc).isSome := by
  induction f generalizing p with
  | zero => simp [chainFuel] at h
  | succ g ih =>
    intro acc
    rw [chainFuel_succ] at h
    cases hfp : findTopicById db p none with
    | none => simp [getAncestorsFuel_none]
    | some t =>
      simp only [hfp] at h ⊢
      show (getAncestorsFuel db g (getParentT db t) (t :: acc)).isSome
      unfold getParentT
      cases ht : truthyOpt t.parentTopicId with
      | none => simp [getAncestorsFuel_none]
      | some q =>
        simp only [ht] at h
        exact ih h (t :: acc)

/-- Partial correctness of the ancestors loop: a finished walk returns the
accumulator prefixed with a root-first parent chain ending at the start
topic. -/
theorem ancestors_chain {db : DB} {f : Nat} :
    ∀ {c : Topic} {acc res : List Topic},
      getAncestorsFuel db f (getParentT db c) acc = some res →
      ∃ pre, res = pre ++ acc ∧
        List.Chain' (fun x y => getParentT db y = some x) (pre ++ [c]) ∧
        ∀ r, (pre ++ [c]).head? = some r → getParentT db r = none := by
  induction f with
  | zero =>
    intro c acc res h
    cases hp : getParentT db c with
    | none =>
      rw [hp, getAncestorsFuel_none] at h
      cases h
      refine ⟨[], rfl, by simp, ?_⟩
      intro r hr
      simp at hr
      subst hr
      exact hp
    | some P =>
      rw [hp] at h
      cases h
  | succ g ih =>
    intro c acc res h
    cases hp : getParentT db c with
    | none =>
      rw [hp, getAncestorsFuel_none] at h
      cases h
      refine ⟨[], rfl, by simp, ?_⟩
      intro r hr
      simp at hr
      subst hr
      exact hp
    | some P =>
      rw [hp] at h
      have h' : getAncestorsFuel db g (getParentT db P) (P :: acc) = some res := h
      obtain ⟨pre', hres, hchain, hhead⟩ := ih h'
      refine ⟨pre' ++ [P], by simpa using hres, ?_, ?_⟩
      · rw [List.chain'_append]
        refine ⟨hchain, by simp, ?_⟩
        intro x hx y hy
        simp only [List.head?_cons, Option.mem_def, Option.some.injEq] at hy
        have hx' : (pre' ++ [P]).getLast? = some P := List.getLast?_concat _
        rw [hx'] at hx
        simp only [Option.mem_def, Option.some.injEq] at hx
        subst hx
        subst hy
        exact hp
      · intro r hr
        apply hhead
        cases pre' with
        | nil => simpa using hr
        | cons a l => simpa using hr

/-- C3 counterexample: on the two-topic cyclic store the claimed bound —
at most as many parent-lookup iterations as there are topics — is
exhausted with the loop still running, and a much larger budget fares no
better: `getAncestors` does not terminate on cyclic data (the source loop
has no bound at all). -/
theorem getAncestors_cycle_diverges :
    getAncestors dbCyc (numIds dbCyc) topicCycA = none ∧
      getAncestors dbCyc 50 topicCycA = none := by
  constructor
  · rfl
  · rfl

/-- C3 (amended): on a store whose parent pointers are acyclic,
`getAncestors` terminates within `numIds + 1` parent-lookup iterations for
every topic and returns the root-first ancestor chain; on cyclic data the
unbounded source loop does not terminate. -/
theorem getAncestors_acyclic_bound (db : DB) (t : Topic) (hac : Acyclic db) :
    ∃ l, getAncestors db (numIds db + 1) t = some l ∧ AncChain db t l := by
  have hterm : (getAncestorsFuel db (numIds db + 1) (getParentT db t) []).isSome := by
    unfold getParentT
    cases ht : truthyOpt t.parentTopicId with
    | none => simp [getAncestorsFuel_none]
    | some p =>
      show (getAncestorsFuel db (numIds db + 1) (findTopicById db p none) []).isSome
      by_cases hmem : p ∈ db.map Prod.fst
      · exact chainFuel_to_ancestors (hac p hmem) []
      · have hnone : findTopicById db p none = none := by
          unfold findTopicById
          rw [dbLookup_eq_none.2 hmem]
        rw [hnone]
        simp [getAncestorsFuel_none]
  cases hres : getAncestors db (numIds db + 1) t with
  | none =>
    unfold getAncestors at hres
    rw [hres] at hterm
    cases hterm
  | some l =>
    have hres' : getAncestorsFuel db (numIds db + 1) (getParentT db t) [] = some l := hres
    obtain ⟨pre, hpre, hchain, hhead⟩ := ancestors_chain hres'
    have hl : l = pre := by simpa using hpre
    refine ⟨l, rfl, ?_⟩
    unfold AncChain
    constructor
    · rw [hl]
      exact hchain
    · rw [hl]
      exact hhead

/-- Witness for C3 at the concrete acyclic parent/child store. -/
theorem getAncestors_acyclic_bound_witness :
    Acyclic dbPC ∧
      ∃ l, getAncestors dbPC (numIds dbPC + 1) topicPCB = some l ∧
        AncChain dbPC topicPCB l :=
  ⟨by unfold Acyclic; decide,
    getAncestors_acyclic_bound dbPC topicPCB (by unfold Acyclic; decide)⟩

theorem descendant_exists {db : DB} {anc d : String} (h : DescendantOf db anc d) :
    ∃ t, findTopicById db d none = some t := by
  cases h with
  | child d t hf hp => exact ⟨t, hf⟩
  | trans m d t hd hf hp => exact ⟨t, hf⟩

theorem findTopicById_mem_keys {db : DB} {d : String} {t : Topic}
    (h : findTopicById db d none = some t) : d ∈ db.map Prod.fst := by
  unfold findTopicById at h
  cases hl : dbLookup db d with
  | none => rw [hl] at h; cases h
  | some vs => exact List.mem_map_of_mem Prod.fst (dbLookup_mem hl)

/-- If the cycle walk of `wouldCreateCircularReference` starts at the moved
topic itself or one of its descendants and finishes, it answers `true`. -/
theorem wcc_true_on_descendant {db : DB} {id : String} (hne : IdsNonempty db)
    (hid : id ≠ "") :
    ∀ (f : Nat) (p : String) (b : Bool), (p = id ∨ DescendantOf db id p) →
      wccFuel db id f p = some b → b = true := by
  intro f
  induction f with
  | zero =>
    intro p b hd h
    cases h
  | succ g ih =>
    intro p b hd h
    rw [wccFuel_succ] at h
    by_cases hp : p = id
    · rw [if_pos hp] at h
      cases h
      rfl
    · rw [if_neg hp] at h
      rcases hd with hd | hd
      · exact absurd hd hp
      · cases hd with
        | child d t hfind hpar =>
          simp only [hfind, hpar] at h
          have htr : truthyOpt (some id) = some id := by simp [truthyOpt, hid]
          rw [htr] at h
          exact ih id b (Or.inl rfl) h
        | trans m d t hdm hfind hpar =>
          obtain ⟨tm, hfm⟩ := descendant_exists hdm
          have hm : m ≠ "" := hne m (findTopicById_mem_keys hfm)
          simp only [hfind, hpar] at h
          have htr : truthyOpt (some m) = some m := by simp [truthyOpt, hm]
          rw [htr] at h
          exact ih m b (Or.inr hdm) h

/-- The cycle walk terminates whenever the bare chain walk does: the early
exit at `topicId` can only shorten it. -/
theorem chainFuel_to_wcc {db : DB} {id : String} :
    ∀ (f : Nat) (p : String), (chainFuel db f p).isSome →
      (wccFuel db id f p).isSome := by
  intro f
  induction f with
  | zero =>
    intro p h
    simp [chainFuel] at h
  | succ g ih =>
    intro p h
    rw [chainFuel_succ] at h
    rw [wccFuel_succ]
    by_cases hp : p = id
    · simp [hp]
    · rw [if_neg hp]
      cases hfp : findTopicById db p none with
      | none => simp
      | some t =>
        simp only [hfp] at h ⊢
        cases ht : truthyOpt t.parentTopicId with
        | none => simp
        | some q =>
          simp only [ht] at h ⊢
          exact ih q h

/-- In an acyclic store the cycle walk always terminates within the fuel
`moveTopic` grants it. -/
theorem wcc_terminates {db : DB} (id : String) (hac : Acyclic db) (p : String) :
    (wccFuel db id (numIds db + 2) p).isSome := by
  apply chainFuel_to_wcc
  by_cases hmem : p ∈ db.map Prod.fst
  · exact chainFuel_mono (hac p hmem)
  · rw [chainFuel_succ]
    have hnone : findTopicById db p none = none := by
      unfold findTopicById
      rw [dbLookup_eq_none.2 hmem]
    simp [hnone]

/-- C5: for every existing topic id in an acyclic store with uuid (nonempty)
ids, `moveTopic(id, p)` with `p` equal to the id or any of its descendants
fails with a CircularReference error, and the version store is unchanged:
no new version of any topic is persisted. -/
theorem move_circular_rejected {db : DB} {id p : String} {tid : Topic}
    (hac : Acyclic db) (hne : IdsNonempty db)
    (hfind : findTopicById db id none = some tid)
    (hdesc : p = id ∨ DescendantOf db id p) :
    moveTopicSvc db id (some p) = some (.error .circularReference) ∧
      moveState db id (some p) = db ∧
      ∀ j, findTopicVersions (moveState db id (some p)) j = findTopicVersions db j := by
  have hid_ne : id ≠ "" := hne id (findTopicById_mem_keys hfind)
  have hp_ne : p ≠ "" := by
    rcases hdesc with rfl | hd
    · exact hid_ne
    · obtain ⟨t, hf⟩ := descendant_exists hd
      exact hne p (findTopicById_mem_keys hf)
  have htr : truthyOpt (some p) = some p := by simp [truthyOpt, hp_ne]
  have hterm := wcc_terminates id hac p
  obtain ⟨b, hb⟩ := Option.isSome_iff_exists.1 hterm
  have hbt : b = true := wcc_true_on_descendant hne hid_ne _ p b hdesc hb
  subst hbt
  have hstep : moveTopicSvc db id (some p) =
      match wccFuel db id (numIds db + 2) p with
      | none => none
      | some true => some (.error .circularReference)
      | some false => some (applyMove db tid (some p)) := by
    unfold moveTopicSvc
    rw [hfind, htr]
  have hmove : moveTopicSvc db id (some p) = some (.error .circularReference) := by
    rw [hstep, hb]
  refine ⟨hmove, ?_, ?_⟩
  · unfold moveState
    rw [hmove]
  · intro j
    unfold moveState
    rw [hmove]

/-- Witness for C5: moving parent `a` under its child `b` in the concrete
store `dbPC` is rejected as circular with the store intact. -/
theorem move_circular_rejected_witness :
    Acyclic dbPC ∧ IdsNonempty dbPC ∧
      moveTopicSvc dbPC "a" (some "b") = some (.error .circularReference) ∧
        moveState dbPC "a" (some "b") = dbPC :=
  ⟨by unfold Acyclic; decide, by unfold IdsNonempty; decide,
    (move_circular_rejected (by unfold Acyclic; decide) (by unfold IdsNonempty; decide)
      (show findTopicById dbPC "a" none = some _ from rfl)
      (Or.inr (DescendantOf.child "b" topicPCB rfl rfl))).1,
    (move_circular_rejected (by unfold Acyclic; decide) (by unfold IdsNonempty; decide)
      (show findTopicById dbPC "a" none = some _ from rfl)
      (Or.inr (DescendantOf.child "b" topicPCB rfl rfl))).2.1⟩

/-! ### Claim C9: validateHierarchy -/

theorem hcrFuel_succ (db : DB) (f : Nat) (vis : List String) (c : String) :
    hcrFuel db (f + 1) vis (some c) =
      if c ∈ vis then some true
      else
        match findTopicById db c none with
        | none => some false
        | some t => hcrFuel db f (c :: vis) (truthyOpt t.parentTopicId) := rfl

theorem hcrFuel_none (db : DB) (f : Nat) (vis : List String) :
    hcrFuel db f vis none = some false := by
  cases f <;> rfl

/-- The visited set stops every cycle walk: each continuing iteration adds
a fresh stored id to the set, so `|stored ids \ visited| + 1` fuel always
suffices. -/
theorem hcr_terminates (db : DB) :
    ∀ (f : Nat) (vis : List String) (cur : Option String),
      ((db.map Prod.fst).toFinset \ vis.toFinset).card < f →
      (hcrFuel db f vis cur).isSome := by
  intro f
  induction f with
  | zero =>
    intro vis cur h
    omega
  | succ g ih =>
    intro vis cur hlt
    cases cur with
    | none => simp [hcrFuel_none]
    | some c =>
      rw [hcrFuel_succ]
      by_cases hv : c ∈ vis
      · simp [hv]
      · rw [if_neg hv]
        cases hf : findTopicById db c none with
        | none => simp
        | some t =>
          show (hcrFuel db g (c :: vis) (truthyOpt t.parentTopicId)).isSome
          apply ih
          have hck : c ∈ (db.map Prod.fst).toFinset :=
            List.mem_toFinset.2 (findTopicById_mem_keys hf)
          have hcS : c ∈ (db.map Prod.fst).toFinset \ vis.toFinset :=
            Finset.mem_sdiff.2 ⟨hck, by simpa using hv⟩
          have hsub : (db.map Prod.fst).toFinset \ (c :: vis).toFinset ⊆
              (db.map Prod.fst).toFinset \ vis.toFinset := by
            apply Finset.sdiff_subset_sdiff (Finset.Subset.refl _)
            intro x hx
            simp at hx ⊢
            right
            exact hx
          have hss : (db.map Prod.fst).toFinset \ (c :: vis).toFinset ⊂
              (db.map Prod.fst).toFinset \ vis.toFinset := by
            rw [Finset.ssubset_iff_of_subset hsub]
            exact ⟨c, hcS, by simp⟩
          have := Finset.card_lt_card hss
          omega

theorem topicErrors_total (db : DB) (t : Topic) :
    (topicErrors db (numIds db + 2) t).isSome := by
  have hterm : (hcrFuel db (numIds db + 2) [] (truthyOpt (some t.id))).isSome := by
    apply hcr_terminates
    have h1 : ((db.map Prod.fst).toFinset \ ([] : List String).toFinset).card ≤
        (db.map Prod.fst).length := by
      simpa using (db.map Prod.fst).toFinset_card_le
    have h2 : (db.map Prod.fst).length = numIds db := by simp [numIds]
    omega
  obtain ⟨b, hb⟩ := Option.isSome_iff_exists.1 hterm
  unfold topicErrors
  rw [hb]
  rfl

theorem vhAux_total (db : DB) (ts : List Topic) :
    (vhAux db (numIds db + 2) ts).isSome := by
  induction ts with
  | nil => simp [vhAux]
  | cons t ts ih =>
    obtain ⟨es, hes⟩ := Option.isSome_iff_exists.1 (topicErrors_total db t)
    obtain ⟨rest, hrest⟩ := Option.isSome_iff_exists.1 ih
    unfold vhAux
    rw [hes, hrest]
    rfl

theorem vhAux_each {db : DB} {fuel : Nat} :
    ∀ {ts : List Topic} {errors : List String}, vhAux db fuel ts = some errors →
      ∀ t ∈ ts, ∃ es, topicErrors db fuel t = some es := by
  intro ts
  induction ts with
  | nil =>
    intro errors h t ht
    simp at ht
  | cons a ts ih =>
    intro errors h t ht
    unfold vhAux at h
    cases ha : topicErrors db fuel a with
    | none => rw [ha] at h; cases h
    | some esa =>
      rw [ha] at h
      cases hrest : vhAux db fuel ts with
      | none => rw [hrest] at h; cases h
      | some rest =>
        rcases List.mem_cons.1 ht with rfl | ht2
        · exact ⟨esa, ha⟩
        · exact ih hrest t ht2

theorem vhAux_mem_of {db : DB} {fuel : Nat} :
    ∀ {ts : List Topic} {errors : List String}, vhAux db fuel ts = some errors →
      ∀ t ∈ ts, ∀ es, topicErrors db fuel t = some es → ∀ m ∈ es, m ∈ errors := by
  intro ts
  induction ts with
  | nil =>
    intro errors h t ht
    simp at ht
  | cons a ts ih =>
    intro errors h t ht es hes m hm
    unfold vhAux at h
    cases ha : topicErrors db fuel a with
    | none => rw [ha] at h; cases h
    | some esa =>
      rw [ha] at h
      cases hrest : vhAux db fuel ts with
      | none => rw [hrest] at h; cases h
      | some rest =>
        rw [hrest] at h
        cases h
        rcases List.mem_cons.1 ht with rfl | ht2
        · rw [ha] at hes
          cases hes
          exact List.mem_append_left _ hm
        · exact List.mem_append_right _ (ih hrest t ht2 es hes m hm)

theorem findLatest_mem_findAll {db : DB} {a : String} {ta : Topic}
    (h : findTopicById db a none = some ta) : ta ∈ findAllTopics db := by
  rw [findTopicById_latest] at h
  cases hl : dbLookup db a with
  | none => rw [hl] at h; cases h
  | some vs =>
    rw [hl] at h
    simp only [Option.some_bind] at h
    unfold findAllTopics
    exact List.mem_filterMap.2 ⟨(a, vs), dbLookup_mem hl, h⟩

/-- On an A→B→A cycle the visited-set walk from `a` answers `true` within
three iterations. -/
theorem hcr_two_cycle {db : DB} {a b : String} {ta tb : Topic}
    (hab : a ≠ b) (ha : a ≠ "") (hb : b ≠ "")
    (hfa : findTopicById db a none = some ta) (hpa : ta.parentTopicId = some b)
    (hfb : findTopicById db b none = some tb) (hpb : tb.parentTopicId = some a) :
    ∀ k, hcrFuel db (k + 3) [] (some a) = some true := by
  intro k
  have htra : truthyOpt (some a) = some a := by simp [truthyOpt, ha]
  have htrb : truthyOpt (some b) = some b := by simp [truthyOpt, hb]
  rw [hcrFuel_succ, if_neg (by simp)]
  simp only [hfa]
  rw [hpa, htrb]
  rw [hcrFuel_succ, if_neg (by simpa using fun hh : b = a => hab hh.symm)]
  simp only [hfb]
  rw [hpb, htra]
  rw [hcrFuel_succ, if_pos (by simp)]

/-- C9: `validateHierarchy` never raises (the visited set bounds every
walk), returns `{isValid, errors}` with `isValid` true exactly when no
errors were found, reports a dangling-parent error for every latest topic
whose parent id does not resolve, and reports a circular-reference error
for both nodes of an A→B→A cycle. -/
theorem validateHierarchy_ok (db : DB) :
    ∃ res, validateHierarchySvc db = some res ∧
      (res.1 = true ↔ res.2 = []) ∧
      (∀ t ∈ findAllTopics db, ∀ p, truthyOpt t.parentTopicId = some p →
        findTopicById db p none = none → danglingMsg t.id p ∈ res.2) ∧
      (∀ a b ta tb, a ≠ b → a ≠ "" → b ≠ "" →
        findTopicById db a none = some ta → ta.id = a → ta.parentTopicId = some b →
        findTopicById db b none = some tb → tb.id = b → tb.parentTopicId = some a →
        circularMsg a ∈ res.2 ∧ circularMsg b ∈ res.2) := by
  obtain ⟨errors, herr⟩ :=
    Option.isSome_iff_exists.1 (vhAux_total db (findAllTopics db))
  refine ⟨(errors.isEmpty, errors), ?_, ?_, ?_, ?_⟩
  · unfold validateHierarchySvc
    rw [herr]
  · simp [List.isEmpty_iff]
  · intro t ht p hp hpd
    obtain ⟨es, hes⟩ := vhAux_each herr t ht
    apply vhAux_mem_of herr t ht es hes
    unfold topicErrors at hes
    cases hhcr : hcrFuel db (numIds db + 2) [] (truthyOpt (some t.id)) with
    | none => rw [hhcr] at hes; cases hes
    | some bb =>
      rw [hhcr] at hes
      cases hes
      apply List.mem_append_left
      unfold dangOf
      simp only [hp, hpd]
      simp
  · intro a b ta tb hab ha hb hfa hta hpa hfb htb hpb
    have hmema := findLatest_mem_findAll hfa
    have hmemb := findLatest_mem_findAll hfb
    have hone : 1 ≤ numIds db := by
      have hmem := findTopicById_mem_keys hfa
      have hlen : 0 < (db.map Prod.fst).length := List.length_pos_of_mem hmem
      simpa [numIds] using hlen
    obtain ⟨k, hkk⟩ : ∃ k, numIds db + 2 = k + 3 := ⟨numIds db - 1, by omega⟩
    constructor
    · obtain ⟨es, hes⟩ := vhAux_each herr ta hmema
      apply vhAux_mem_of herr ta hmema es hes
      unfold topicErrors at hes
      have htra : truthyOpt (some ta.id) = some a := by
        rw [hta]
        simp [truthyOpt, ha]
      rw [htra, hkk, hcr_two_cycle hab ha hb hfa hpa hfb hpb k] at hes
      cases hes
      apply List.mem_append_right
      simp [hta]
    · obtain ⟨es, hes⟩ := vhAux_each herr tb hmemb
      apply vhAux_mem_of herr tb hmemb es hes
      unfold topicErrors at hes
      have htrb : truthyOpt (some tb.id) = some b := by
        rw [htb]
        simp [truthyOpt, hb]
      rw [htrb, hkk,
        hcr_two_cycle (fun hh : b = a => hab hh.symm) hb ha hfb hpb hfa hpa k] at hes
      cases hes
      apply List.mem_append_right
      simp [htb]

/-- Witness for C9 on the concrete store with an A↔B cycle and a dangling
parent: all three errors are reported. -/
theorem validateHierarchy_ok_witness :
    ∃ res, validateHierarchySvc dbC9 = some res ∧
      danglingMsg "c" "zz" ∈ res.2 ∧
      circularMsg "a" ∈ res.2 ∧ circularMsg "b" ∈ res.2 := by
  obtain ⟨res, hres, hiff, hdang, hcyc⟩ := validateHierarchy_ok dbC9
  have hc := hcyc "a" "b"
    { id := "a", name := "A", content := "c", version := 1, parentTopicId := some "b" }
    { id := "b", name := "B", content := "c", version := 1, parentTopicId := some "a" }
    (by decide) (by decide) (by decide) rfl rfl rfl rfl rfl rfl
  refine ⟨res, hres, ?_, hc.1, hc.2⟩
  exact hdang
    { id := "c", name := "C", content := "c", version := 1, parentTopicId := some "zz" }
    (by decide) "zz" rfl rfl

/-! ### Claim C2: shortest path between siblings -/

/-- C2 counterexample: in the store with parent `a` and children `b`, `c`,
`findShortestPath(b, c)` is `[B, C]` — the direct sibling edge of weight 2
— and *not* the claimed `[B, A, C]`: Dijkstra reaches `C` at distance 2
through the sibling edge first, and the tied two-hop route through the
parent does not displace a predecessor on a non-strict improvement. -/
theorem shortestPath_siblings_counterexample :
    findShortestPath dbABC "b" "c" = [topicB, topicC] ∧
      findShortestPath dbABC "b" "c" ≠ [topicB, topicA, topicC] ∧
      pathWeight (findShortestPath dbABC "b" "c") = 2 := by
  refine ⟨rfl, ?_, rfl⟩
  decide

/-- C2 (amended): for every store containing exactly a parent topic `A`
with two children `B` and `C` (one stored version each, created
parent-first), `findShortestPath(B, C)` returns `[B, C]`, whose total edge
weight is 2 — equal to the weight of the claimed `[B, A, C]`, which is not
returned. -/
theorem shortestPath_siblings_general (a b c na nb nc ca cb cc : String)
    (hab : a ≠ b) (hac : a ≠ c) (hbc : b ≠ c) (ha : a ≠ "") :
    findShortestPath [(a, [⟨a, na, ca, 1, none⟩]), (b, [⟨b, nb, cb, 1, some a⟩]),
        (c, [⟨c, nc, cc, 1, some a⟩])] b c =
      [⟨b, nb, cb, 1, some a⟩, ⟨c, nc, cc, 1, some a⟩] ∧
    pathWeight [(⟨b, nb, cb, 1, some a⟩ : Topic), ⟨c, nc, cc, 1, some a⟩] = 2 := by
  have hba : b ≠ a := fun h => hab h.symm
  have hca : c ≠ a := fun h => hac h.symm
  have hcb : c ≠ b := fun h => hbc h.symm
  constructor
  · simp [findShortestPath, findTopicById, dbLookup, findAllTopics, dijkstraLoop,
      findMinNode, pnGet, pnSet, setVisited, relaxAll, relaxOne, neighborsOf,
      getParentT, truthyOpt, findTopicsByParentId, getEdgeWeight, ltD, reconPath,
      hab, hac, hbc, hba, hca, hcb, ha, beq_iff_eq, List.erase_cons]
  · simp [pathWeight, getEdgeWeight, truthyOpt, ha, hab, hac]

/-- Witness for the amended C2 at concrete ids and names. -/
theorem shortestPath_siblings_general_witness :
    findShortestPath [("a", [⟨"a", "A", "c", 1, none⟩]),
        ("b", [⟨"b", "B", "c", 1, some "a"⟩]),
        ("c", [⟨"c", "C", "c", 1, some "a"⟩])] "b" "c" =
      [⟨"b", "B", "c", 1, some "a"⟩, ⟨"c", "C", "c", 1, some "a"⟩] ∧
    pathWeight [(⟨"b", "B", "c", 1, some "a"⟩ : Topic), ⟨"c", "C", "c", 1, some "a"⟩] = 2 :=
  shortestPath_siblings_general "a" "b" "c" "A" "B" "C" "c" "c" "c"
    (by decide) (by decide) (by decide) (by decide)

/-! ### Claim C4: findAllPaths enumerates simple paths -/

theorem dfsAllPaths_zero (db : DB) (targetId : String) (maxDepth : Nat)
    (cur : Topic) (path : List Topic) (vis : List String) :
    dfsAllPaths db targetId maxDepth 0 cur path vis = [] := rfl

theorem dfsAllPaths_succ (db : DB) (targetId : String) (maxDepth fuel : Nat)
    (cur : Topic) (path : List Topic) (vis : List String) :
    dfsAllPaths db targetId maxDepth (fuel + 1) cur path vis =
      if path.length > maxDepth then []
      else if cur.id = targetId then [path]
      else
        ((neighborsOf db cur).map (fun n =>
          if n.id ∈ (cur.id :: vis) then []
          else dfsAllPaths db targetId maxDepth fuel n (path ++ [n]) (cur.id :: vis))).flatten := rfl

theorem path_decomp {path : List Topic} {cur : Topic} (hne : path ≠ [])
    (hlast : path.getLast? = some cur) : path.dropLast ++ [cur] = path := by
  have h1 := List.getLast?_eq_getLast path hne
  rw [h1] at hlast
  have h2 : path.getLast hne = cur := Option.some.inj hlast
  rw [← h2]
  exact List.dropLast_append_getLast hne

/-- Characterization of the DFS: under the loop invariants — the path ends
at the current node, is a chain of neighbor steps without repeated ids,
and the visited set holds exactly the ids of the path before the current
node — the enumerated lists are exactly the extensions of `path` to simple
neighbor-chains of at most `maxDepth` nodes ending at the target. -/
theorem dfs_mem (db : DB) (toId : String) (maxDepth : Nat) :
    ∀ (fuel : Nat) (cur : Topic) (path : List Topic) (vis : List String),
      fuel + path.length = maxDepth + 2 →
      path ≠ [] → path.getLast? = some cur →
      List.Chain' (fun x y => y ∈ neighborsOf db x) path →
      (path.map Topic.id).Nodup →
      (∀ x, x ∈ vis ↔ x ∈ path.dropLast.map Topic.id) →
      ∀ q, q ∈ dfsAllPaths db toId maxDepth fuel cur path vis ↔
        ((∃ ext, q = path ++ ext) ∧
         List.Chain' (fun x y => y ∈ neighborsOf db x) q ∧
         (q.map Topic.id).Nodup ∧
         q.length ≤ maxDepth ∧
         (q.getLast?).map Topic.id = some toId) := by
  intro fuel
  induction fuel with
  | zero =>
    intro cur path vis hfuel hne hlast hchain hnodup hvis q
    constructor
    · intro hq
      rw [dfsAllPaths_zero] at hq
      simp at hq
    · rintro ⟨⟨ext, rfl⟩, -, -, hql, -⟩
      exfalso
      rw [List.length_append] at hql
      omega
  | succ g ih =>
    intro cur path vis hfuel hne hlast hchain hnodup hvis q
    by_cases hlen : path.length > maxDepth
    · constructor
      · intro hq
        rw [dfsAllPaths_succ, if_pos hlen] at hq
        simp at hq
      · rintro ⟨⟨ext, rfl⟩, -, -, hql, -⟩
        exfalso
        rw [List.length_append] at hql
        omega
    · have hplast := path_decomp hne hlast
      have hids : path.map Topic.id = path.dropLast.map Topic.id ++ [cur.id] := by
        conv_lhs => rw [← hplast]
        simp
      have hcur_mem : cur.id ∈ path.map Topic.id := by
        rw [hids]
        simp
      by_cases htgt : cur.id = toId
      · have hdfs : dfsAllPaths db toId maxDepth (g + 1) cur path vis = [path] := by
          unfold dfsAllPaths
          rw [if_neg hlen, if_pos htgt]
        rw [hdfs]
        constructor
        · intro hq
          have hq' : q = path := List.mem_singleton.1 hq
          subst hq'
          refine ⟨⟨[], by simp⟩, hchain, hnodup, by omega, ?_⟩
          rw [hlast]
          simp [htgt]
        · rintro ⟨⟨ext, rfl⟩, hqchain, hqnodup, hql, hqlast⟩
          cases ext with
          | nil => simp
          | cons n ext' =>
            exfalso
            have hlast2 : (path ++ n :: ext').getLast? = (n :: ext').getLast? :=
              List.getLast?_append_of_ne_nil path (by simp)
            rw [hlast2] at hqlast
            obtain ⟨z, hz, hzid⟩ : ∃ z, (n :: ext').getLast? = some z ∧ z.id = toId := by
              cases hzl : (n :: ext').getLast? with
              | none => rw [hzl] at hqlast; cases hqlast
              | some z =>
                rw [hzl] at hqlast
                exact ⟨z, rfl, by simpa using hqlast⟩
            have hzmem : z ∈ n :: ext' := List.mem_of_mem_getLast? hz
            rw [List.map_append, List.nodup_append] at hqnodup
            have h1 : toId ∈ path.map Topic.id := htgt ▸ hcur_mem
            have h2 : toId ∈ (n :: ext').map Topic.id :=
              hzid ▸ List.mem_map_of_mem Topic.id hzmem
            exact hqnodup.2.2 h1 h2
      · have hdfs : dfsAllPaths db toId maxDepth (g + 1) cur path vis =
            ((neighborsOf db cur).map (fun n =>
              if n.id ∈ (cur.id :: vis) then []
              else dfsAllPaths db toId maxDepth g n (path ++ [n]) (cur.id :: vis))).flatten := by
          rw [dfsAllPaths_succ, if_neg hlen, if_neg htgt]
        have hsub : ∀ x, x ∈ (cur.id :: vis) ↔ x ∈ path.map Topic.id := by
          intro x
          rw [hids]
          constructor
          · intro hx
            rcases List.mem_cons.1 hx with rfl | hx2
            · simp
            · exact List.mem_append_left _ ((hvis x).1 hx2)
          · intro hx
            rcases List.mem_append.1 hx with hx1 | hx1
            · exact List.mem_cons.2 (Or.inr ((hvis x).2 hx1))
            · simp at hx1
              exact List.mem_cons.2 (Or.inl hx1)
        have hstep : ∀ n, n ∈ neighborsOf db cur → n.id ∉ (cur.id :: vis) →
            ∀ q', q' ∈ dfsAllPaths db toId maxDepth g n (path ++ [n]) (cur.id :: vis) ↔
              ((∃ ext, q' = (path ++ [n]) ++ ext) ∧
               List.Chain' (fun x y => y ∈ neighborsOf db x) q' ∧
               (q'.map Topic.id).Nodup ∧
               q'.length ≤ maxDepth ∧
               (q'.getLast?).map Topic.id = some toId) := by
          intro n hn hnid
          have hfresh : n.id ∉ path.map Topic.id := fun hmem => hnid ((hsub n.id).2 hmem)
          apply ih n (path ++ [n]) (cur.id :: vis)
          · rw [List.length_append]
            simp
            omega
          · simp
          · exact List.getLast?_concat _
          · rw [List.chain'_append]
            refine ⟨hchain, by simp, ?_⟩
            intro x hx y hy
            rw [hlast] at hx
            simp only [Option.mem_def, Option.some.injEq] at hx
            simp only [List.head?_cons, Option.mem_def, Option.some.injEq] at hy
            subst hx
            subst hy
            exact hn
          · rw [List.map_append, List.nodup_append]
            refine ⟨hnodup, by simp, ?_⟩
            intro a ha hb
            simp at hb
            subst hb
            exact hfresh ha
          · intro x
            rw [List.dropLast_concat]
            exact hsub x
        rw [hdfs]
        constructor
        · intro hq
          rw [List.mem_flatten] at hq
          obtain ⟨s, hs, hqs⟩ := hq
          rw [List.mem_map] at hs
          obtain ⟨n, hn, rfl⟩ := hs
          by_cases hnid : n.id ∈ (cur.id :: vis)
          · rw [if_pos hnid] at hqs
            simp at hqs
          · rw [if_neg hnid] at hqs
            obtain ⟨⟨ext, hext⟩, hc, hn2, hl2, hlast2⟩ := (hstep n hn hnid q).1 hqs
            refine ⟨⟨n :: ext, ?_⟩, hc, hn2, hl2, hlast2⟩
            rw [hext, List.append_assoc]
            rfl
        · rintro ⟨⟨ext, rfl⟩, hqchain, hqnodup, hql, hqlast⟩
          cases ext with
          | nil =>
            exfalso
            rw [List.append_nil] at hqlast
            rw [hlast] at hqlast
            simp at hqlast
            exact htgt hqlast
          | cons n ext' =>
            have hjun : n ∈ neighborsOf db cur := by
              have h3 := (List.chain'_append.1 hqchain).2.2
              exact h3 cur hlast n rfl
            have hfresh2 : n.id ∉ path.map Topic.id := by
              rw [List.map_append, List.nodup_append] at hqnodup
              intro hmem
              exact hqnodup.2.2 hmem (by simp)
            have hnid : n.id ∉ (cur.id :: vis) := fun hmem => hfresh2 ((hsub n.id).1 hmem)
            rw [List.mem_flatten]
            refine ⟨_, List.mem_map.2 ⟨n, hjun, rfl⟩, ?_⟩
            rw [if_neg hnid]
            apply (hstep n hjun hnid _).2
            exact ⟨⟨ext', by simp⟩, hqchain, hqnodup, hql, hqlast⟩

/-- C4 (amended): `findAllPaths(fromId, toId, maxDepth)` returns the
trivial one-node path when `fromId = toId` (and `[]` for an unknown
`fromId`); otherwise it returns exactly the simple paths (no repeated
topic id) through the derived neighbor graph from `fromId` to `toId` with
at most `maxDepth` *nodes* — i.e. at most `maxDepth − 1` hops, not the
claimed `maxDepth` hops — and the returned list is sorted ascending by
path length. -/
theorem findAllPaths_spec (db : DB) (fromId toId : String) (maxDepth : Nat) :
    (fromId = toId → ∀ t, findTopicById db fromId none = some t →
      findAllPaths db fromId toId maxDepth = [[t]]) ∧
    (findTopicById db fromId none = none → findAllPaths db fromId toId maxDepth = []) ∧
    (fromId ≠ toId → ∀ ft, findTopicById db fromId none = some ft →
      (∀ q, q ∈ findAllPaths db fromId toId maxDepth ↔
        SimplePathTo db ft toId q ∧ q.length ≤ maxDepth) ∧
      List.Sorted lenRel (findAllPaths db fromId toId maxDepth)) := by
  refine ⟨?_, ?_, ?_⟩
  · intro heq t ht
    unfold findAllPaths
    rw [if_pos heq, ht]
  · intro hnone
    unfold findAllPaths
    by_cases heq : fromId = toId
    · rw [if_pos heq, hnone]
    · rw [if_neg heq, hnone]
  · intro hne ft hft
    have hfp : findAllPaths db fromId toId maxDepth =
        (dfsAllPaths db toId maxDepth (maxDepth + 1) ft [ft] []).insertionSort lenRel := by
      unfold findAllPaths
      rw [if_neg hne, hft]
    constructor
    · intro q
      rw [hfp]
      rw [(List.perm_insertionSort lenRel _).mem_iff]
      rw [dfs_mem db toId maxDepth (maxDepth + 1) ft [ft] [] (by simp) (by simp) rfl
        (by simp) (by simp) (by simp) q]
      unfold SimplePathTo
      constructor
      · rintro ⟨⟨ext, rfl⟩, hc, hn, hl, hlast⟩
        exact ⟨⟨rfl, hc, hn, hlast⟩, hl⟩
      · rintro ⟨⟨hhead, hc, hn, hlast⟩, hl⟩
        refine ⟨⟨q.tail, ?_⟩, hc, hn, hl, hlast⟩
        cases q with
        | nil => cases hhead
        | cons x q' =>
          simp at hhead
          subst hhead
          rfl
    · rw [hfp]
      exact List.sorted_insertionSort lenRel _

/-- C4 counterexample: in the parent/child store the path a→b has exactly
1 hop, so the claim demands it be returned for `maxDepth = 1`; the code
prunes on *node* count and returns nothing until `maxDepth = 2`. -/
theorem findAllPaths_hops_counterexample :
    findAllPaths dbPC "a" "b" 1 = [] ∧
      findAllPaths dbPC "a" "b" 2 = [[topicPCA, topicPCB]] := ⟨rfl, rfl⟩

/-- Witness for the amended C4 on the sibling store. -/
theorem findAllPaths_spec_witness :
    ([topicB, topicC] ∈ findAllPaths dbABC "b" "c" 5 ↔
      SimplePathTo dbABC topicB "c" [topicB, topicC] ∧
        ([topicB, topicC] : List Topic).length ≤ 5) ∧
      List.Sorted lenRel (findAllPaths dbABC "b" "c" 5) :=
  ⟨((findAllPaths_spec dbABC "b" "c" 5).2.2 (by decide) topicB rfl).1 [topicB, topicC],
   ((findAllPaths_spec dbABC "b" "c" 5).2.2 (by decide) topicB rfl).2⟩
